import Mathlib

set_option maxRecDepth 8000

/-!
Verification of the release-helper program (`src/main.py`) of the
RemakeEngine repository: a shallow embedding of its version model,
metadata store, tag resolution and orchestrator, with theorems checking
the natural-language specification against the code.
-/

namespace RemakeEngine

/-! ## Python string primitives -/

/-- Whitespace predicate of Python `str.strip()`, restricted to the six
ASCII whitespace characters (the inputs handled by this tool are ASCII). -/
def pyIsSpace (c : Char) : Bool :=
  c = ' ' || c = '\t' || c = '\n' || c = '\r' || c = '\x0b' || c = '\x0c'

/-- Python `str.strip()`: drop whitespace from both ends. -/
def pyStrip (cs : List Char) : List Char :=
  ((cs.dropWhile pyIsSpace).reverse.dropWhile pyIsSpace).reverse

/-- Drop one leading `v`/`V` (`if v and v[0] in ("v", "V"): v = v[1:]`). -/
def dropLeadV : List Char → List Char
  | c :: rest => if c = 'v' || c = 'V' then rest else c :: rest
  | [] => []

/-- Python `int(...)` on a string of decimal digits. -/
def digitsToNat (ds : List Char) : Nat :=
  ds.foldl (fun n c => 10 * n + (c.toNat - 48)) 0

/-! ## `_parse_version` (src/main.py lines 65-81) -/

/-- A parsed version: the numeric segments padded to four entries, plus the
free-text suffix (`""` when the version is final).  Mirrors the frozen
dataclass `ParsedVersion`. -/
structure ParsedVersion where
  nums : List Nat
  suffix : String
deriving DecidableEq, Repr

/-- Greedy consumption of up to `k` further `.digits` groups, as the regex
fragment `(?:\.\d+){0,3}` matches them (each `\d+` is a maximal digit run;
a dot not followed by a digit stops the scan and is left in the rest). -/
def grabSegs : Nat → List Char → List (List Char) × List Char
  | 0, rest => ([], rest)
  | k + 1, rest =>
    match rest with
    | '.' :: rest2 =>
      match rest2.takeWhile Char.isDigit with
      | [] => ([], rest)
      | d :: ds =>
        let out := grabSegs k (rest2.dropWhile Char.isDigit)
        ((d :: ds) :: out.1, out.2)
    | _ => ([], rest)

/-- `parts[:4]` after `while len(parts) < 4: parts.append(0)`. -/
def pad4 (parts : List Nat) : List Nat :=
  (parts ++ List.replicate 4 0).take 4

/-- `_parse_version`: empty-check, `strip()`, drop one leading `v`/`V`, then
match `^(\d+(?:\.\d+){0,3})(.*)$`.

Regex semantics made explicit: `.` never matches a newline, and `$` matches
only at the end of the string or just before a terminal newline.  After
`strip()` the string cannot end in a newline, so any newline in the
remainder is internal and defeats every backtracking split of the match
(each candidate suffix still contains that newline); hence the match
succeeds exactly when the remainder starts with a digit and contains no
newline, and then the greedy split gives the two groups. -/
def _parse_version (ver : String) : Option ParsedVersion :=
  if ver = "" then none
  else
    let u := dropLeadV (pyStrip ver.data)
    match u.takeWhile Char.isDigit with
    | [] => none
    | d :: ds =>
      if u.contains '\n' then none
      else
        let out := grabSegs 3 (u.dropWhile Char.isDigit)
        let parts := ((d :: ds) :: out.1).map digitsToNat
        some ⟨pad4 parts, ⟨out.2⟩⟩

/-! ## `_is_newer` (src/main.py lines 84-101) -/

/-- Python `<` on lists/tuples of integers: lexicographic, most significant
first.  (Used for `n.nums > c.nums` and `n.nums < c.nums`; the Python
operands always have length 4.) -/
def listLtNat : List Nat → List Nat → Bool
  | [], [] => false
  | [], _ :: _ => true
  | _ :: _, [] => false
  | a :: as, b :: bs =>
    if a < b then true
    else if b < a then false
    else listLtNat as bs

/-- `_is_newer(new_ver, cur_ver, allow_equal_final)`. -/
def _is_newer (new_ver cur_ver : String) (allow_equal_final : Bool) : Bool :=
  match _parse_version new_ver, _parse_version cur_ver with
  | some n, some c =>
    if listLtNat c.nums n.nums then true
    else if listLtNat n.nums c.nums then false
    else if allow_equal_final && n.suffix == "" && !(c.suffix == "") then true
    else false
  | _, _ => false

/-! ## Rendering of pure-numeric version strings (for the padding claim) -/

/-- `.seg1.seg2...segk`: the part of a dotted version string after the first
numeric segment. -/
def dotTail (segs : List (List Char)) : List Char :=
  segs.foldr (fun s acc => '.' :: (s ++ acc)) []

/-- A digit segment: nonempty and all decimal digits. -/
def digitSeg (s : List Char) : Bool :=
  !s.isEmpty && s.all Char.isDigit

/-! ## Error taxonomy and repository commands -/

/-- The repository commands issued through `run` in the publish flow, in
source order (`run` executes them live and only prints them in dry-run). -/
inductive Cmd where
  | fetchOrigin
  | fetchTags
  | stage
  | commit
  | push
  | tagCreate
  | pushTag
deriving DecidableEq, Repr

/-- The failure modes of the publish flow (`RuntimeError` sites of
src/main.py plus the two pre-flight validation exits of `main`). -/
inductive RelErr where
  | invalidVersion
  | storedVersionInvalid
  | versionNotNewer
  | notARepository
  | branchQueryFailed
  | wrongBranch
  | statusQueryFailed
  | dirtyTree
  | localResolveFailed
  | remoteBranchMissing
  | remoteMismatch
  | cmdFailed (c : Cmd)
  | tagExists
  | duplicateVersion
deriving DecidableEq, Repr

deriving instance DecidableEq for Except

/-! ## `_version_core` and `ensure_tag_doesnt_exist` (lines 51-55, 178-192) -/

/-- `_version_core`: strip whitespace, then drop one leading `v`/`V`. -/
def _version_core (ver : String) : String :=
  ⟨dropLeadV (pyStrip ver.data)⟩

/-- Python `version.startswith(("v", "V"))` on the raw input string. -/
def startsWithV (s : String) : Bool :=
  match s.data with
  | c :: _ => c = 'v' || c = 'V'
  | [] => false

/-- `ensure_tag_doesnt_exist`, with the repository's existing tags passed
explicitly (they are what the `_tag_exists` queries read after the tag
fetch).  Which of the three colliding candidates is named in the raised
message depends on Python set iteration order, so the model records only
the error kind. -/
def ensure_tag_doesnt_exist (tags : List String) (version : String)
    (tagPfx : String) : Except RelErr String :=
  let core := _version_core version
  let tag := if tagPfx ≠ "" then tagPfx ++ core
             else if startsWithV version then version else core
  if tags.contains tag || tags.contains core || tags.contains ("v" ++ core) then
    Except.error RelErr.tagExists
  else Except.ok tag

/-! ## Metadata documents and the TOML writer/reader (lines 105-128) -/

/-- One `[[releases]]` entry with `version`, `date`, `tag`; every entry
this program creates carries all three keys. -/
structure Release where
  version : String
  date : String
  tag : String
deriving DecidableEq, Repr

/-- The metadata document: `currentVersion` plus the ordered release list.
A Python document lacking the `currentVersion` key behaves exactly like
one whose value is `""` everywhere in this program (`obj.get
("currentVersion", "")` on write, falsiness on read), so the model uses a
total string. -/
structure MetaDoc where
  currentVersion : String
  releases : List Release
deriving DecidableEq, Repr

/-- `_toml_escape` per character: double every backslash, escape every
double quote.  The two sequential `str.replace` passes of the source
compose to exactly this expansion (the first pass introduces no quotes and
the second touches no backslashes). -/
def escChar (c : Char) : List Char :=
  if c = '\\' then ['\\', '\\']
  else if c = '"' then ['\\', '"']
  else [c]

/-- `_toml_escape` on a whole string. -/
def _toml_escape (s : String) : List Char :=
  s.data.foldr (fun c acc => escChar c ++ acc) []

/-- One `key = "value"` line as `_toml_write` emits it. -/
def renderKeyLine (key : List Char) (v : String) : List Char :=
  key ++ (' ' :: '=' :: ' ' :: '"' :: (_toml_escape v ++ ['"']))

def cvKey : List Char := "currentVersion".data

def verKey : List Char := "version".data

def dateKey : List Char := "date".data

def tagKey : List Char := "tag".data

def relHdr : List Char := "[[releases]]".data

/-- The line list `_toml_write` builds: the `currentVersion` line, then for
each release a blank line, the `[[releases]]` header and its three key
lines, and one final empty line (so the joined text ends in a newline). -/
def writeLines (d : MetaDoc) : List (List Char) :=
  renderKeyLine cvKey d.currentVersion ::
    d.releases.foldr (fun r acc =>
      [] :: relHdr :: renderKeyLine verKey r.version ::
        renderKeyLine dateKey r.date :: renderKeyLine tagKey r.tag :: acc) [[]]

/-- `"\n".join(lines)`. -/
def joinNL : List (List Char) → List Char
  | [] => []
  | [l] => l
  | l :: ls => l ++ '\n' :: joinNL ls

/-- `_toml_write` as a pure function from the document to the file text it
writes. -/
def _toml_write (d : MetaDoc) : String :=
  ⟨joinNL (writeLines d)⟩

/-- Characters a TOML basic string may carry (escaped or not): everything
except the control characters other than tab (TOML 1.0 excludes
`U+0000`-`U+001F` except tab, and `U+007F`). -/
def tomlSafeChar (c : Char) : Bool :=
  c = '\t' || (0x20 ≤ c.toNat && c.toNat ≠ 0x7f)

/-- A string whose characters can all live inside a TOML basic string. -/
def tomlSafeStr (s : String) : Bool :=
  s.data.all tomlSafeChar

/-- Characters allowed unescaped inside a TOML basic string: the safe
characters minus quote and backslash (those two travel escaped). -/
def tomlPlainChar (c : Char) : Bool :=
  tomlSafeChar c && c ≠ '"' && c ≠ '\\'

/-- Body of a basic string: consume characters up to the closing quote,
which must end the line; only the `\"` and `\\` escapes — the only ones
`_toml_escape` ever emits — are accepted. -/
def parseBasic : List Char → Option (List Char)
  | [] => none
  | c :: rest =>
    if c = '"' then (if rest.isEmpty then some [] else none)
    else if c = '\\' then
      match rest with
      | [] => none
      | c2 :: rest2 =>
        if c2 = '"' || c2 = '\\' then (parseBasic rest2).map (fun t => c2 :: t)
        else none
    else if tomlPlainChar c then (parseBasic rest).map (fun t => c :: t)
    else none

/-- Consume an exact leading run of characters. -/
def dropExact : List Char → List Char → Option (List Char)
  | [], l => some l
  | _ :: _, [] => none
  | k :: ks, c :: cs => if c = k then dropExact ks cs else none

/-- Strict parse of one `key = "..."` line. -/
def parseKeyLine (key : List Char) (line : List Char) : Option (List Char) :=
  match dropExact key line with
  | some (' ' :: '=' :: ' ' :: '"' :: body) => parseBasic body
  | _ => none

/-- Python `str.split("\n")`. -/
def splitNL : List Char → List (List Char)
  | [] => [[]]
  | c :: rest =>
    if c = '\n' then [] :: splitNL rest
    else
      match splitNL rest with
      | l :: ls => (c :: l) :: ls
      | [] => [[c]]

/-- Parse the `[[releases]]` blocks: each block is a blank line, the
header and the three key lines; the final line of the file is empty. -/
def parseBlocks : List (List Char) → Option (List Release)
  | [[]] => some []
  | [] :: hdr :: vL :: dL :: tL :: rest =>
    if hdr = relHdr then
      match parseKeyLine verKey vL, parseKeyLine dateKey dL,
          parseKeyLine tagKey tL, parseBlocks rest with
      | some v, some dt, some tg, some rs => some (⟨⟨v⟩, ⟨dt⟩, ⟨tg⟩⟩ :: rs)
      | _, _, _, _ => none
    else none
  | _ => none

/-- Modelled from the spec: the read side of the persisted-metadata
primitive is Python's standard-library `tomllib` (external to `src/`),
here restricted to the document sublanguage `_toml_write` emits.  On every
text `_toml_write` produces, this strict reader agrees with `tomllib`: a
value containing a raw newline splits its quoted string across lines, and
a raw control character other than tab is illegal inside a TOML basic
string, so `tomllib` raises (modelled as `none`) exactly where a line here
fails to parse; on the remaining written texts both accept and produce the
same document. -/
def _toml_read (text : String) : Option MetaDoc :=
  match splitNL text.data with
  | cvLine :: rest =>
    match parseKeyLine cvKey cvLine, parseBlocks rest with
    | some cv, some rels => some ⟨⟨cv⟩, rels⟩
    | _, _ => none
  | [] => none

/-! ## `update_meta` (lines 210-233) -/

/-- `update_meta`, with the result of reading the metadata file passed in
(`none` models a missing file, an unreadable file, or any read exception —
all collapse to `meta = None` / non-dict in the source) and `now` the
externally supplied timestamp.  The value is the raised error, if any, or
the file contents written, if any: the source writes exactly once, at the
end, and only when no error was raised and not in dry-run mode, so an
error or a dry run leaves the persisted file untouched. -/
def update_meta (metaDoc : Option MetaDoc) (version tagForMeta now : String)
    (dry_run : Bool) : Except RelErr (Option String) :=
  let entry : Release := ⟨version, now, tagForMeta⟩
  match metaDoc with
  | none =>
    let fresh : MetaDoc := ⟨version, [entry]⟩
    if dry_run then Except.ok none else Except.ok (some (_toml_write fresh))
  | some m =>
    if m.releases.any (fun r => r.version == version) then
      Except.error RelErr.duplicateVersion
    else
      let m2 : MetaDoc := ⟨version, m.releases ++ [entry]⟩
      if dry_run then Except.ok none else Except.ok (some (_toml_write m2))

/-! ## The orchestrator `main` (lines 248-334) -/

/-- A file write performed by the publish flow: the two properties mirrors
(`update_sonar` on `args.sonar_path` and on
`"sonar-project.properties"`) and the metadata document. -/
inductive FileWrite where
  | sonarProps
  | sonarProject
  | metaToml (contents : String)
deriving DecidableEq, Repr

/-- The external state the publish flow queries: results of the read-only
`git` queries (`none` for a failed or empty query), whether each mutating
command would succeed when actually run, and the parse of the metadata
file.  The remote-tracking commit of the branch and the tag list each
carry two observations, because `git fetch origin` and
`git fetch --tags` refresh exactly what the later
`git rev-parse origin/<branch>` and `_tag_exists` queries read: the
`Stale` fields are the pre-fetch state (what a dry run observes, since
`run` skips both fetches) and the `Fetched` fields are the post-fetch
state (what a live run observes once its fetches succeed).  The
repository root, branch, status and local rev are untouched by the
fetches, so they have a single observation. -/
structure GitEnv where
  repoRoot : Option String
  headBranch : Option String
  statusOut : Option String
  localRev : Option String
  remoteRevStale : Option String
  remoteRevFetched : Option String
  tagsStale : List String
  tagsFetched : List String
  cmdOk : Cmd → Bool
  metaDoc : Option MetaDoc

/-- Result of a run of the publish flow: process exit code, the raised
error if any, the repository commands actually executed (not merely
printed), and the files written. -/
structure Outcome where
  exitCode : Nat
  err : Option RelErr
  executed : List Cmd
  writes : List FileWrite
deriving DecidableEq, Repr

/-- `get_current_version` (lines 236-243): the stored `currentVersion`
when the document reads, `None` on any failure. -/
def get_current_version (metaDoc : Option MetaDoc) : Option String :=
  metaDoc.map (fun d => d.currentVersion)

/-- Execute a list of mutating commands in order (live mode): stop at the
first failure with `ExternalCommandFailed`. -/
def runAll (cmdOk : Cmd → Bool) (ex : List Cmd) (ws : List FileWrite) :
    List Cmd → Outcome
  | [] => ⟨0, none, ex, ws⟩
  | c :: cs =>
    if cmdOk c then runAll cmdOk (ex ++ [c]) ws cs
    else ⟨1, some (RelErr.cmdFailed c), ex ++ [c], ws⟩

/-- Suffix characters of `VERSION_RE`: `[0-9A-Za-z.-]`. -/
def reSufChar (c : Char) : Bool :=
  c.isAlphanum || c = '.' || c = '-'

/-- Full anchored match of
`VERSION_RE = ^[vV]?\d+(?:\.\d+){1,3}(?:[-+][0-9A-Za-z.-]+)?$` as
`re.match` evaluates it.  `$` may also match just before one terminal
newline, and no character class of the pattern matches a newline, so a
single trailing newline is tolerated and any other newline kills the
match.  The greedy scan of dot-groups is exact: after backtracking to
fewer groups the remainder starts with `.`, which can never begin the
suffix group. -/
def versionRe (s : String) : Bool :=
  let t := match s.data.reverse with
    | '\n' :: rest2 => rest2.reverse
    | _ => s.data
  if t.contains '\n' then false
  else
    let u := dropLeadV t
    match u.takeWhile Char.isDigit with
    | [] => false
    | _ :: _ =>
      let out := grabSegs 3 (u.dropWhile Char.isDigit)
      if out.1.length = 0 then false
      else
        match out.2 with
        | [] => true
        | c :: rest =>
          (c = '-' || c = '+') && !rest.isEmpty && rest.all reSufChar

/-- The publish sequence inside the `try` block of `main` (lines 293-328):
resolve the repository root, check branch, cleanliness and remote
synchrony, resolve the tag, write the two sonar mirrors, update the
metadata, then stage/commit/push/tag/push-tag.  `run` executes its command
only when not in dry-run; `run_capture` queries always execute but are
read-only.  Because the dry run skips `git fetch origin` and
`git fetch --tags`, its remote-rev and tag queries read the stale
observations while a live run (whose fetches succeeded) reads the fetched
ones. -/
def publishSeq (env : GitEnv) (version tagPfx now branch : String)
    (dry : Bool) : Outcome :=
  match env.repoRoot with
  | none => ⟨1, some RelErr.notARepository, [], []⟩
  | some _ =>
    match env.headBranch with
    | none => ⟨1, some RelErr.branchQueryFailed, [], []⟩
    | some hb =>
      if hb ≠ branch then ⟨1, some RelErr.wrongBranch, [], []⟩ else
      match env.statusOut with
      | none => ⟨1, some RelErr.statusQueryFailed, [], []⟩
      | some st =>
        if st ≠ "" then ⟨1, some RelErr.dirtyTree, [], []⟩ else
        let ex1 : List Cmd := if dry then [] else [Cmd.fetchOrigin]
        if !dry && !env.cmdOk Cmd.fetchOrigin then
          ⟨1, some (RelErr.cmdFailed Cmd.fetchOrigin), ex1, []⟩
        else
          match env.localRev with
          | none => ⟨1, some RelErr.localResolveFailed, ex1, []⟩
          | some lr =>
            match (if dry then env.remoteRevStale else env.remoteRevFetched) with
            | none => ⟨1, some RelErr.remoteBranchMissing, ex1, []⟩
            | some rr =>
              if lr ≠ rr then ⟨1, some RelErr.remoteMismatch, ex1, []⟩ else
              let ex2 : List Cmd := ex1 ++ (if dry then [] else [Cmd.fetchTags])
              if !dry && !env.cmdOk Cmd.fetchTags then
                ⟨1, some (RelErr.cmdFailed Cmd.fetchTags), ex2, []⟩
              else
                match ensure_tag_doesnt_exist
                    (if dry then env.tagsStale else env.tagsFetched)
                    version tagPfx with
                | Except.error e => ⟨1, some e, ex2, []⟩
                | Except.ok tag =>
                  let ws1 : List FileWrite :=
                    if dry then [] else [FileWrite.sonarProps, FileWrite.sonarProject]
                  match update_meta env.metaDoc version tag now dry with
                  | Except.error e => ⟨1, some e, ex2, ws1⟩
                  | Except.ok w =>
                    let ws2 : List FileWrite :=
                      ws1 ++ (match w with
                        | some cts => [FileWrite.metaToml cts]
                        | none => [])
                    if dry then ⟨0, none, ex2, ws2⟩
                    else runAll env.cmdOk ex2 ws2
                      [Cmd.stage, Cmd.commit, Cmd.push, Cmd.tagCreate, Cmd.pushTag]

/-- `main` for `publish release`: version format check, stored-version
validity and newness checks, then the publish sequence. -/
def mainPublish (env : GitEnv) (version branch tagPfx now : String)
    (allowEq dry : Bool) : Outcome :=
  if !versionRe version then ⟨1, some RelErr.invalidVersion, [], []⟩
  else
    match get_current_version env.metaDoc with
    | some cv =>
      if cv ≠ "" then
        if (_parse_version cv).isNone then
          ⟨1, some RelErr.storedVersionInvalid, [], []⟩
        else if !_is_newer version cv allowEq then
          ⟨1, some RelErr.versionNotNewer, [], []⟩
        else publishSeq env version tagPfx now branch dry
      else publishSeq env version tagPfx now branch dry
    | none => publishSeq env version tagPfx now branch dry

/-- The error found by the precondition checks of the publish sequence
when the remote-rev and tag queries observe `rrev` and `tags` (helper for
the dry-run theorems: a dry run observes the stale state, a live run the
fetched state). -/
def checkErr (env : GitEnv) (rrev : Option String) (tags : List String)
    (version tagPfx branch : String) : Option RelErr :=
  match env.repoRoot with
  | none => some RelErr.notARepository
  | some _ =>
    match env.headBranch with
    | none => some RelErr.branchQueryFailed
    | some hb =>
      if hb ≠ branch then some RelErr.wrongBranch else
      match env.statusOut with
      | none => some RelErr.statusQueryFailed
      | some st =>
        if st ≠ "" then some RelErr.dirtyTree else
        match env.localRev with
        | none => some RelErr.localResolveFailed
        | some lr =>
          match rrev with
          | none => some RelErr.remoteBranchMissing
          | some rr =>
            if lr ≠ rr then some RelErr.remoteMismatch else
            match ensure_tag_doesnt_exist tags version tagPfx with
            | Except.error e => some e
            | Except.ok _ =>
              match env.metaDoc with
              | some m =>
                if m.releases.any (fun r => r.version == version) then
                  some RelErr.duplicateVersion
                else none
              | none => none

/-- The five precondition-failure kinds named by the dry-run claim: dirty
tree, wrong branch, remote mismatch, tag collision, duplicate version. -/
def isPrecondErr : RelErr → Bool
  | RelErr.dirtyTree => true
  | RelErr.wrongBranch => true
  | RelErr.remoteMismatch => true
  | RelErr.tagExists => true
  | RelErr.duplicateVersion => true
  | _ => false

end RemakeEngine

/-! # Theorems -/

namespace RemakeEngine

/-! ### Lexicographic-order lemmas -/

theorem listLtNat_irrefl : ∀ l : List Nat, listLtNat l l = false := by
  intro l
  induction l with
  | nil => rfl
  | cons a as ih => simp [listLtNat, ih]

theorem listLtNat_asymm :
    ∀ a b : List Nat, listLtNat a b = true → listLtNat b a = false := by
  intro a
  induction a with
  | nil =>
    intro b _
    cases b with
    | nil => rfl
    | cons x xs => rfl
  | cons x xs ih =>
    intro b hab
    cases b with
    | nil => simp [listLtNat] at hab
    | cons y ys =>
      simp only [listLtNat] at hab ⊢
      by_cases h1 : x < y
      · have h2 : ¬ y < x := by omega
        simp [h1, h2]
      · by_cases h2 : y < x
        · simp [h1, h2] at hab
        · simp only [h1, h2, if_false] at hab ⊢
          exact ih ys hab

theorem listLtNat_eq_of_not_lt :
    ∀ a b : List Nat, a.length = b.length →
      listLtNat a b = false → listLtNat b a = false → a = b := by
  intro a
  induction a with
  | nil =>
    intro b hlen _ _
    cases b with
    | nil => rfl
    | cons y ys => simp at hlen
  | cons x xs ih =>
    intro b hlen hab hba
    cases b with
    | nil => simp at hlen
    | cons y ys =>
      simp only [listLtNat] at hab hba
      by_cases h1 : x < y
      · simp [h1] at hab
      · by_cases h2 : y < x
        · simp [h1, h2] at hba
        · have hxy : x = y := by omega
          simp only [h1, h2, if_false] at hab hba
          have : xs = ys := ih ys (by simpa using hlen) hab hba
          rw [hxy, this]

theorem pad4_length (parts : List Nat) : (pad4 parts).length = 4 := by
  unfold pad4
  rw [List.length_take, List.length_append, List.length_replicate]
  omega

theorem parse_nums_length {s : String} {p : ParsedVersion}
    (h : _parse_version s = some p) : p.nums.length = 4 := by
  unfold _parse_version at h
  split at h
  · exact absurd h (by simp)
  · dsimp only at h
    split at h
    · exact absurd h (by simp)
    · split at h
      · exact absurd h (by simp)
      · simp only [Option.some.injEq] at h
        rw [← h]
        exact pad4_length _

/-! ### C1 -/

/-- C1: at equal parsed numeric tuples, `_is_newer` returns `true` exactly
when the flag is set, the candidate suffix is empty and the current suffix
is non-empty; every other equal-numerics combination yields `false`. -/
theorem isNewer_equal_numerics (a b : String) (flag : Bool)
    (pa pb : ParsedVersion)
    (ha : _parse_version a = some pa) (hb : _parse_version b = some pb)
    (hnum : pa.nums = pb.nums) :
    _is_newer a b flag = true ↔
      (flag = true ∧ pa.suffix = "" ∧ pb.suffix ≠ "") := by
  unfold _is_newer
  rw [ha, hb]
  dsimp only
  rw [hnum, listLtNat_irrefl]
  constructor
  · intro h
    by_cases hc : (flag && pa.suffix == "" && !(pb.suffix == "")) = true
    · simp only [Bool.and_eq_true, beq_iff_eq, Bool.not_eq_true', beq_eq_false_iff_ne]
        at hc
      exact ⟨hc.1.1, hc.1.2, hc.2⟩
    · simp [hc] at h
  · intro ⟨h1, h2, h3⟩
    simp [h1, h2, h3]

/-- Witness for C1 at the spec's own example: candidate `1.2.3` versus
current `1.2.3-rc.1` with the flag enabled. -/
theorem isNewer_equal_numerics_witness :
    _is_newer "1.2.3" "1.2.3-rc.1" true = true ↔
      (true = true ∧ ("" : String) = "" ∧ ("-rc.1" : String) ≠ "") :=
  isNewer_equal_numerics "1.2.3" "1.2.3-rc.1" true
    ⟨[1, 2, 3, 0], ""⟩ ⟨[1, 2, 3, 0], "-rc.1"⟩
    (by decide) (by decide) (by decide)

/-! ### C2 -/

/-- C2 counterexample: the claim says `parse` rejects malformed separators
such as `"1..2"`, but the code's regex matches the leading `"1"` as the
numeric portion and absorbs `"..2"` into the suffix, so parsing succeeds. -/
theorem parse_malformed_separator_accepted :
    _parse_version "1..2" = some ⟨[1, 0, 0, 0], "..2"⟩ := by decide

/-- C2 (amended): `parse` returns `none` exactly when the input string is
empty, or — after stripping surrounding whitespace and one optional leading
`v`/`V` — the remainder does not start with a decimal digit or contains a
newline.  Malformed separators after a valid leading portion (for example
`"1..2"`) are not rejected: the remainder is absorbed into the suffix. -/
theorem parse_none_iff (s : String) :
    _parse_version s = none ↔
      (s = "" ∨
        (dropLeadV (pyStrip s.data)).takeWhile Char.isDigit = [] ∨
        (dropLeadV (pyStrip s.data)).contains '\n' = true) := by
  unfold _parse_version
  by_cases hs : s = ""
  · simp [hs]
  · simp only [hs, if_false, false_or]
    cases htw : (dropLeadV (pyStrip s.data)).takeWhile Char.isDigit with
    | nil => simp [htw]
    | cons d ds =>
      dsimp only
      simp only [reduceCtorEq, false_or]
      by_cases hc : (dropLeadV (pyStrip s.data)).contains '\n' = true
      · simp [hc]
      · simp only [Bool.not_eq_true] at hc
        simp [hc]

/-! ### C6 -/

/-- C6: when both strings parse and the numeric tuples differ, the result of
`_is_newer` in each direction equals the lexicographic comparison of the
tuples (independently of the flag and the suffixes), and exactly one
direction holds. -/
theorem isNewer_unequal_numerics (a b : String) (flag : Bool)
    (pa pb : ParsedVersion)
    (ha : _parse_version a = some pa) (hb : _parse_version b = some pb)
    (hne : pa.nums ≠ pb.nums) :
    _is_newer a b flag = listLtNat pb.nums pa.nums ∧
    _is_newer b a flag = listLtNat pa.nums pb.nums ∧
    _is_newer a b flag ≠ _is_newer b a flag := by
  have hlen : pa.nums.length = pb.nums.length := by
    rw [parse_nums_length ha, parse_nums_length hb]
  unfold _is_newer
  rw [ha, hb]
  dsimp only
  cases hab : listLtNat pa.nums pb.nums with
  | false =>
    cases hba : listLtNat pb.nums pa.nums with
    | false => exact absurd (listLtNat_eq_of_not_lt _ _ hlen hab hba) hne
    | true => simp [hab, hba]
  | true =>
    have hba : listLtNat pb.nums pa.nums = false := listLtNat_asymm _ _ hab
    simp [hab, hba]

/-- Witness for C6 at candidate `2.0` versus current `1.9.9.9`. -/
theorem isNewer_unequal_numerics_witness :
    _is_newer "2.0" "1.9.9.9" false = listLtNat [1, 9, 9, 9] [2, 0, 0, 0] ∧
    _is_newer "1.9.9.9" "2.0" false = listLtNat [2, 0, 0, 0] [1, 9, 9, 9] ∧
    _is_newer "2.0" "1.9.9.9" false ≠ _is_newer "1.9.9.9" "2.0" false :=
  isNewer_unequal_numerics "2.0" "1.9.9.9" false
    ⟨[2, 0, 0, 0], ""⟩ ⟨[1, 9, 9, 9], ""⟩
    (by decide) (by decide) (by decide)

/-! ### C8 helper lemmas -/

theorem dotTail_nil : dotTail [] = [] := rfl

theorem dotTail_cons (s : List Char) (rest : List (List Char)) :
    dotTail (s :: rest) = '.' :: (s ++ dotTail rest) := rfl

theorem dropWhile_eq_self_of_takeWhile_nil {p : Char → Bool} (l : List Char)
    (h : l.takeWhile p = []) : l.dropWhile p = l := by
  cases l with
  | nil => rfl
  | cons c cs =>
    by_cases hc : p c
    · simp [List.takeWhile_cons, hc] at h
    · simp [List.dropWhile_cons, hc]

theorem takeWhile_append_of_all {p : Char → Bool} :
    ∀ l1 l2 : List Char, l1.all p = true → l2.takeWhile p = [] →
      (l1 ++ l2).takeWhile p = l1 := by
  intro l1
  induction l1 with
  | nil =>
    intro l2 _ h2
    simpa using h2
  | cons c cs ih =>
    intro l2 h1 h2
    simp only [List.all_cons, Bool.and_eq_true] at h1
    simp [List.takeWhile_cons, h1.1, ih l2 h1.2 h2]

theorem dropWhile_append_of_all {p : Char → Bool} :
    ∀ l1 l2 : List Char, l1.all p = true → l2.takeWhile p = [] →
      (l1 ++ l2).dropWhile p = l2 := by
  intro l1
  induction l1 with
  | nil =>
    intro l2 _ h2
    simpa using dropWhile_eq_self_of_takeWhile_nil l2 h2
  | cons c cs ih =>
    intro l2 h1 h2
    simp only [List.all_cons, Bool.and_eq_true] at h1
    simp [List.dropWhile_cons, h1.1, ih l2 h1.2 h2]

theorem dotTail_takeWhile_digit (segs : List (List Char)) :
    (dotTail segs).takeWhile Char.isDigit = [] := by
  cases segs with
  | nil => rfl
  | cons s rest =>
    have hdot : Char.isDigit '.' = false := by decide
    rw [dotTail_cons]
    simp [List.takeWhile_cons, hdot]

theorem grabSegs_dotTail :
    ∀ (segs : List (List Char)) (k : Nat), segs.length ≤ k →
      (∀ s ∈ segs, digitSeg s = true) →
      grabSegs k (dotTail segs) = (segs, []) := by
  intro segs
  induction segs with
  | nil =>
    intro k _ _
    cases k with
    | zero => rfl
    | succ k2 => rfl
  | cons s rest ih =>
    intro k hlen hall
    cases k with
    | zero => simp at hlen
    | succ k2 =>
      have hsg : digitSeg s = true := hall s (by simp)
      have hsne : s ≠ [] := by
        intro h0
        rw [h0] at hsg
        simp [digitSeg] at hsg
      have hsd : s.all Char.isDigit = true := by
        simp only [digitSeg, Bool.and_eq_true] at hsg
        exact hsg.2
      obtain ⟨c, cs, rfl⟩ : ∃ c cs, s = c :: cs := by
        cases s with
        | nil => exact absurd rfl hsne
        | cons c cs => exact ⟨c, cs, rfl⟩
      have htw : ((c :: cs) ++ dotTail rest).takeWhile Char.isDigit = c :: cs :=
        takeWhile_append_of_all _ _ hsd (dotTail_takeWhile_digit rest)
      have hdw : ((c :: cs) ++ dotTail rest).dropWhile Char.isDigit = dotTail rest :=
        dropWhile_append_of_all _ _ hsd (dotTail_takeWhile_digit rest)
      rw [dotTail_cons, grabSegs]
      simp only [htw, hdw]
      rw [ih k2 (by simp at hlen; omega) (fun t ht => hall t (List.mem_cons_of_mem _ ht))]

theorem isDigit_not_space (c : Char) (h : c.isDigit = true) :
    pyIsSpace c = false := by
  by_contra hsp
  simp only [Bool.not_eq_false, pyIsSpace, Bool.or_eq_true, decide_eq_true_eq] at hsp
  rcases hsp with ((((h1 | h1) | h1) | h1) | h1) | h1 <;>
    (subst h1; exact absurd h (by decide))

theorem mem_dotTail {segs : List (List Char)}
    (hall : ∀ s ∈ segs, digitSeg s = true) :
    ∀ c ∈ dotTail segs, c = '.' ∨ c.isDigit = true := by
  induction segs with
  | nil =>
    intro c hc
    simp [dotTail_nil] at hc
  | cons s rest ih =>
    intro c hc
    rw [dotTail_cons] at hc
    rcases List.mem_cons.mp hc with rfl | hc2
    · exact Or.inl rfl
    · rcases List.mem_append.mp hc2 with hin | hin
      · have hsg := hall s (by simp)
        simp only [digitSeg, Bool.and_eq_true] at hsg
        exact Or.inr (List.all_eq_true.mp hsg.2 c hin)
      · exact ih (fun t ht => hall t (List.mem_cons_of_mem _ ht)) c hin

theorem dropWhile_eq_self_of_all_not {p : Char → Bool} (l : List Char)
    (h : l.all (fun c => !(p c)) = true) : l.dropWhile p = l := by
  cases l with
  | nil => rfl
  | cons c cs =>
    simp only [List.all_cons, Bool.and_eq_true, Bool.not_eq_true'] at h
    simp [List.dropWhile_cons, h.1]

theorem pyStrip_eq_self {l : List Char}
    (h : l.all (fun c => !(pyIsSpace c)) = true) : pyStrip l = l := by
  unfold pyStrip
  rw [dropWhile_eq_self_of_all_not l h,
    dropWhile_eq_self_of_all_not l.reverse (by rw [List.all_reverse]; exact h),
    List.reverse_reverse]

theorem dropLeadV_of_digit {c : Char} {cs : List Char} (h : c.isDigit = true) :
    dropLeadV (c :: cs) = c :: cs := by
  have hv : (c = 'v' || c = 'V') = false := by
    by_contra hne
    simp only [Bool.not_eq_false, Bool.or_eq_true, decide_eq_true_eq] at hne
    rcases hne with h1 | h1 <;> (rw [h1] at h; exact absurd h (by decide))
  simp [dropLeadV, hv]

theorem contains_newline_false :
    ∀ l : List Char, (∀ c ∈ l, c = '.' ∨ c.isDigit = true) →
      l.contains '\n' = false := by
  intro l h
  induction l with
  | nil => rfl
  | cons c cs ih =>
    have hc := h c (by simp)
    have hrec := ih (fun x hx => h x (List.mem_cons_of_mem _ hx))
    have hcn : ('\n' == c) = false := by
      rcases hc with rfl | hd
      · rfl
      · by_contra he
        simp only [Bool.not_eq_false, beq_iff_eq] at he
        rw [← he] at hd
        exact absurd hd (by decide)
    rw [List.contains_cons, hcn, hrec]
    rfl

theorem pad4_append_zeros (xs : List Nat) (k : Nat) (h : xs.length + k = 4) :
    pad4 (xs ++ List.replicate k 0) = pad4 xs := by
  unfold pad4
  rw [List.append_assoc, ← List.replicate_add,
    List.take_append_eq_append_take, List.take_append_eq_append_take]
  congr 1
  rw [List.take_replicate, List.take_replicate]
  congr 1
  omega

/-- Parsing a pure-numeric dotted version string (first digit segment `d0`,
then up to three further digit segments) succeeds with the segments padded
to four and an empty suffix. -/
theorem parse_dotted (d0 : List Char) (segs : List (List Char))
    (h0 : digitSeg d0 = true)
    (hs : ∀ s ∈ segs, digitSeg s = true)
    (hlen : segs.length ≤ 3) :
    _parse_version ⟨d0 ++ dotTail segs⟩ =
      some ⟨pad4 ((d0 :: segs).map digitsToNat), ""⟩ := by
  have h0ne : d0 ≠ [] := by
    intro h0e
    rw [h0e] at h0
    simp [digitSeg] at h0
  have h0d : d0.all Char.isDigit = true := by
    simp only [digitSeg, Bool.and_eq_true] at h0
    exact h0.2
  obtain ⟨c, cs, rfl⟩ : ∃ c cs, d0 = c :: cs := by
    cases d0 with
    | nil => exact absurd rfl h0ne
    | cons c cs => exact ⟨c, cs, rfl⟩
  have hcd : c.isDigit = true := by
    simp only [List.all_cons, Bool.and_eq_true] at h0d
    exact h0d.1
  have hgood : ∀ x ∈ (c :: cs) ++ dotTail segs, x = '.' ∨ x.isDigit = true := by
    intro x hx
    rcases List.mem_append.mp hx with hin | hin
    · exact Or.inr (List.all_eq_true.mp h0d x hin)
    · exact mem_dotTail hs x hin
  have hns : ((c :: cs) ++ dotTail segs).all (fun x => !(pyIsSpace x)) = true := by
    rw [List.all_eq_true]
    intro x hx
    rcases hgood x hx with rfl | hd
    · decide
    · simp [isDigit_not_space x hd]
  have hne : (⟨(c :: cs) ++ dotTail segs⟩ : String) ≠ "" := by
    intro he
    have := congrArg String.data he
    simp at this
  have hdropv : dropLeadV ((c :: cs) ++ dotTail segs) = (c :: cs) ++ dotTail segs := by
    rw [List.cons_append, dropLeadV_of_digit hcd]
  unfold _parse_version
  rw [if_neg hne]
  dsimp only
  rw [pyStrip_eq_self hns, hdropv,
    takeWhile_append_of_all _ _ h0d (dotTail_takeWhile_digit segs)]
  dsimp only
  rw [contains_newline_false _ hgood]
  simp only [Bool.false_eq_true, if_false]
  rw [dropWhile_append_of_all _ _ h0d (dotTail_takeWhile_digit segs),
    grabSegs_dotTail segs 3 hlen hs]

/-! ### C8 -/

/-- C8: a version string with fewer than four numeric segments and no
suffix parses to the same numeric 4-tuple as the same string extended with
trailing `.0` segments up to four segments (absent trailing segments are
zero-padded). -/
theorem parse_pads_missing_segments (d0 : List Char) (segs : List (List Char))
    (h0 : digitSeg d0 = true)
    (hs : ∀ s ∈ segs, digitSeg s = true)
    (hlen : segs.length ≤ 2) :
    _parse_version ⟨d0 ++ dotTail segs⟩ =
      some ⟨pad4 ((d0 :: segs).map digitsToNat), ""⟩ ∧
    _parse_version ⟨d0 ++ dotTail (segs ++ List.replicate (3 - segs.length) ['0'])⟩ =
      some ⟨pad4 ((d0 :: segs).map digitsToNat), ""⟩ := by
  constructor
  · exact parse_dotted d0 segs h0 hs (by omega)
  · have hs2 : ∀ s ∈ segs ++ List.replicate (3 - segs.length) ['0'], digitSeg s = true := by
      intro s hmem
      rcases List.mem_append.mp hmem with hin | hin
      · exact hs s hin
      · rw [List.eq_of_mem_replicate hin]
        decide
    have hlen2 : (segs ++ List.replicate (3 - segs.length) ['0']).length ≤ 3 := by
      rw [List.length_append, List.length_replicate]
      omega
    rw [parse_dotted d0 _ h0 hs2 hlen2]
    have hnums : pad4 ((d0 :: (segs ++ List.replicate (3 - segs.length) ['0'])).map digitsToNat) =
        pad4 ((d0 :: segs).map digitsToNat) := by
      have hzero : digitsToNat ['0'] = 0 := by decide
      rw [show (d0 :: (segs ++ List.replicate (3 - segs.length) ['0'])) =
          (d0 :: segs) ++ List.replicate (3 - segs.length) ['0'] from rfl,
        List.map_append, List.map_replicate, hzero,
        pad4_append_zeros _ _ (by simp; omega)]
    rw [hnums]

/-- Witness for C8 at the spec's own example: `1.2` versus `1.2.0.0`. -/
theorem parse_pads_missing_segments_witness :
    _parse_version "1.2" = some ⟨[1, 2, 0, 0], ""⟩ ∧
    _parse_version "1.2.0.0" = some ⟨[1, 2, 0, 0], ""⟩ := by
  have h := parse_pads_missing_segments ['1'] [['2']]
    (by decide) (by decide) (by decide)
  exact h

/-! ### C10 -/

/-- C10: `_is_newer` is irreflexive — no version string is newer than
itself, for either value of the flag. -/
theorem isNewer_irrefl (s : String) (flag : Bool) :
    _is_newer s s flag = false := by
  unfold _is_newer
  cases h : _parse_version s with
  | none => rfl
  | some p =>
    dsimp only
    rw [listLtNat_irrefl]
    by_cases hsuf : p.suffix == ""
    · simp [hsuf]
    · simp [hsuf]

/-! ### C5 -/

/-- C5: `ensure_tag_doesnt_exist` resolves the tag as
`tagPrefix ++ core(version)` for a non-empty prefix, else the literal
input version when it starts with `v`/`V`, else `core(version)`; and it
fails with the tag-exists error exactly when the resolved tag, the bare
core, or `"v" ++ core` already exists as a tag. -/
theorem tag_resolution_and_collision (tags : List String)
    (version tagPfx : String) :
    (∀ t, ensure_tag_doesnt_exist tags version tagPfx = Except.ok t →
      t = (if tagPfx ≠ "" then tagPfx ++ _version_core version
           else if startsWithV version then version
           else _version_core version)) ∧
    (ensure_tag_doesnt_exist tags version tagPfx =
        Except.error RelErr.tagExists ↔
      (tags.contains (if tagPfx ≠ "" then tagPfx ++ _version_core version
            else if startsWithV version then version
            else _version_core version) ||
        tags.contains (_version_core version) ||
        tags.contains ("v" ++ _version_core version)) = true) := by
  constructor
  · intro t ht
    unfold ensure_tag_doesnt_exist at ht
    dsimp only at ht
    by_cases hc : (tags.contains (if tagPfx ≠ "" then tagPfx ++ _version_core version
          else if startsWithV version then version else _version_core version) ||
        tags.contains (_version_core version) ||
        tags.contains ("v" ++ _version_core version)) = true
    · rw [if_pos hc] at ht
      exact absurd ht (by simp)
    · rw [if_neg hc] at ht
      simp only [Except.ok.injEq] at ht
      exact ht.symm
  · unfold ensure_tag_doesnt_exist
    dsimp only
    constructor
    · intro h
      by_contra hc
      simp only [Bool.not_eq_true] at hc
      rw [hc] at h
      exact absurd h (by simp)
    · intro hc
      rw [hc]
      rfl

/-- Witness for C5 at the spec's triple-check scenario: existing tag
`v1.0.0`, candidate version `1.0.0`, empty prefix. -/
theorem tag_resolution_and_collision_witness :
    ensure_tag_doesnt_exist ["v1.0.0"] "1.0.0" "" =
      Except.error RelErr.tagExists :=
  (tag_resolution_and_collision ["v1.0.0"] "1.0.0" "").2.mpr (by decide)

/-! ### C3 -/

/-- C3: `update_meta` on a stored document that already contains a release
with the given version fails with the duplicate-version error in live and
dry-run mode alike (an error means the final write is never reached, so
the persisted document is untouched); and a dry run never produces a
write, even on success. -/
theorem update_meta_duplicate_rejected (m : MetaDoc)
    (version tagForMeta now : String) :
    ((∃ r ∈ m.releases, r.version = version) →
      ∀ dry, update_meta (some m) version tagForMeta now dry =
        Except.error RelErr.duplicateVersion) ∧
    (∀ metaDoc, update_meta metaDoc version tagForMeta now true =
        Except.error RelErr.duplicateVersion ∨
      update_meta metaDoc version tagForMeta now true = Except.ok none) := by
  constructor
  · intro hdup dry
    have hany : m.releases.any (fun r => r.version == version) = true := by
      rw [List.any_eq_true]
      obtain ⟨r, hr, hv⟩ := hdup
      exact ⟨r, hr, by simp [hv]⟩
    unfold update_meta
    dsimp only
    rw [hany]
    rfl
  · intro metaDoc
    unfold update_meta
    cases metaDoc with
    | none => simp
    | some m2 =>
      dsimp only
      by_cases hany : m2.releases.any (fun r => r.version == version) = true
      · rw [hany]
        exact Or.inl rfl
      · simp only [Bool.not_eq_true] at hany
        rw [hany]
        simp

/-- Witness for C3: a stored document whose single release already has the
candidate version, exercised in live and dry-run mode. -/
theorem update_meta_duplicate_rejected_witness :
    update_meta (some ⟨"1.0.0", [⟨"1.0.0", "2024-01-01", "v1.0.0"⟩]⟩)
        "1.0.0" "v1.0.0" "2024-02-02" false =
      Except.error RelErr.duplicateVersion ∧
    update_meta (some ⟨"1.0.0", [⟨"1.0.0", "2024-01-01", "v1.0.0"⟩]⟩)
        "1.0.0" "v1.0.0" "2024-02-02" true =
      Except.error RelErr.duplicateVersion :=
  ⟨(update_meta_duplicate_rejected ⟨"1.0.0", [⟨"1.0.0", "2024-01-01", "v1.0.0"⟩]⟩
      "1.0.0" "v1.0.0" "2024-02-02").1 (by decide) false,
   (update_meta_duplicate_rejected ⟨"1.0.0", [⟨"1.0.0", "2024-01-01", "v1.0.0"⟩]⟩
      "1.0.0" "v1.0.0" "2024-02-02").1 (by decide) true⟩

/-! ### C9 -/

/-- C9: when the metadata read yields nothing (missing file, unreadable
file, or non-table load), `update_meta` performs no duplicate check and,
live, writes a fresh document holding only the new current version and the
single new entry; in particular the history of a malformed existing file
is silently discarded rather than reported. -/
theorem update_meta_fresh_on_unreadable (version tagForMeta now : String) :
    update_meta none version tagForMeta now false =
      Except.ok (some (_toml_write ⟨version, [⟨version, now, tagForMeta⟩]⟩)) ∧
    update_meta none version tagForMeta now true = Except.ok none ∧
    (∀ s : String, _toml_read s = none →
      update_meta (_toml_read s) version tagForMeta now false =
        Except.ok (some (_toml_write ⟨version, [⟨version, now, tagForMeta⟩]⟩))) := by
  refine ⟨rfl, rfl, ?_⟩
  intro s h
  rw [h]
  rfl

/-- Witness for C9: a malformed metadata file (unterminated quoted string)
that still textually carries a release history is read as nothing, and the
live update writes the fresh single-entry document. -/
theorem update_meta_fresh_on_unreadable_witness :
    update_meta
        (_toml_read "currentVersion = \"0.9\n\n[[releases]]\nversion = \"0.9\"\n")
        "1.0" "v1.0" "2024-02-02" false =
      Except.ok (some (_toml_write ⟨"1.0", [⟨"1.0", "2024-02-02", "v1.0"⟩]⟩)) :=
  (update_meta_fresh_on_unreadable "1.0" "v1.0" "2024-02-02").2.2
    "currentVersion = \"0.9\n\n[[releases]]\nversion = \"0.9\"\n" (by decide)

/-! ### C7 helper lemmas -/

theorem escChar_mem {c x : Char} (hx : x ∈ escChar c) : x = c ∨ x = '\\' := by
  unfold escChar at hx
  by_cases h1 : c = '\\'
  · rw [if_pos h1] at hx
    rcases List.mem_cons.mp hx with h | h
    · exact Or.inr h
    · simp only [List.mem_singleton] at h
      exact Or.inr h
  · rw [if_neg h1] at hx
    by_cases h2 : c = '"'
    · rw [if_pos h2] at hx
      rcases List.mem_cons.mp hx with h | h
      · exact Or.inr h
      · simp only [List.mem_singleton] at h
        exact Or.inl (h.trans h2.symm)
    · rw [if_neg h2] at hx
      simp only [List.mem_singleton] at hx
      exact Or.inl hx

theorem mem_escList {x : Char} :
    ∀ l : List Char, x ∈ l.foldr (fun c acc => escChar c ++ acc) [] →
      x ∈ l ∨ x = '\\' := by
  intro l
  induction l with
  | nil =>
    intro h
    simp at h
  | cons c cs ih =>
    intro h
    simp only [List.foldr_cons] at h
    rcases List.mem_append.mp h with h1 | h1
    · rcases escChar_mem h1 with rfl | rfl
      · exact Or.inl (by simp)
      · exact Or.inr rfl
    · rcases ih h1 with h2 | h2
      · exact Or.inl (List.mem_cons_of_mem _ h2)
      · exact Or.inr h2

theorem toml_escape_no_newline {v : String} (hv : tomlSafeStr v = true) :
    '\n' ∉ _toml_escape v := by
  intro hmem
  unfold _toml_escape at hmem
  rcases mem_escList v.data hmem with h1 | h1
  · simp only [tomlSafeStr] at hv
    exact absurd (List.all_eq_true.mp hv '\n' h1) (by decide)
  · exact absurd h1 (by decide)

theorem renderKeyLine_no_newline {key : List Char} {v : String}
    (hk : '\n' ∉ key) (hv : tomlSafeStr v = true) :
    '\n' ∉ renderKeyLine key v := by
  intro hmem
  unfold renderKeyLine at hmem
  rcases List.mem_append.mp hmem with h1 | h1
  · exact hk h1
  · simp only [List.mem_cons, List.mem_append, List.mem_singleton] at h1
    rcases h1 with h | h | h | h | (h | h)
    · exact absurd h (by decide)
    · exact absurd h (by decide)
    · exact absurd h (by decide)
    · exact absurd h (by decide)
    · exact toml_escape_no_newline hv h
    · exact absurd h (by decide)

theorem splitNL_no_newline :
    ∀ l : List Char, '\n' ∉ l → splitNL l = [l] := by
  intro l
  induction l with
  | nil => intro _; rfl
  | cons c cs ih =>
    intro h
    have hc : ¬ c = '\n' := fun he => h (by simp [he])
    unfold splitNL
    rw [if_neg hc, ih (fun hm => h (List.mem_cons_of_mem _ hm))]

theorem splitNL_append (l t : List Char) (h : '\n' ∉ l) :
    splitNL (l ++ '\n' :: t) = l :: splitNL t := by
  induction l with
  | nil =>
    show splitNL ('\n' :: t) = [] :: splitNL t
    conv_lhs => rw [splitNL]
    rw [if_pos rfl]
  | cons c cs ih =>
    have hc : ¬ c = '\n' := fun he => h (by simp [he])
    show splitNL (c :: (cs ++ '\n' :: t)) = (c :: cs) :: splitNL t
    conv_lhs => rw [splitNL]
    rw [if_neg hc, ih (fun hm => h (List.mem_cons_of_mem _ hm))]

theorem splitNL_joinNL :
    ∀ ls : List (List Char), ls ≠ [] → (∀ l ∈ ls, '\n' ∉ l) →
      splitNL (joinNL ls) = ls := by
  intro ls
  induction ls with
  | nil =>
    intro h _
    exact absurd rfl h
  | cons l rest ih =>
    intro _ hall
    cases rest with
    | nil =>
      show splitNL (joinNL [l]) = [l]
      rw [show joinNL [l] = l from rfl]
      exact splitNL_no_newline l (hall l (by simp))
    | cons l2 rest2 =>
      show splitNL (joinNL (l :: l2 :: rest2)) = l :: l2 :: rest2
      rw [show joinNL (l :: l2 :: rest2) = l ++ '\n' :: joinNL (l2 :: rest2) from rfl,
        splitNL_append l _ (hall l (by simp)),
        ih (by simp) (fun x hx => hall x (List.mem_cons_of_mem _ hx))]

theorem parseBasic_esc (c2 : Char) (rest2 : List Char)
    (h : (c2 = '"' || c2 = '\\') = true) :
    parseBasic ('\\' :: c2 :: rest2) =
      (parseBasic rest2).map (fun t => c2 :: t) := by
  rw [parseBasic.eq_def]
  try dsimp only
  rw [if_neg (show ¬('\\' : Char) = '"' by decide),
    if_pos (rfl : ('\\' : Char) = '\\')]
  try dsimp only
  rw [if_pos h]

theorem parseBasic_plain (c : Char) (rest : List Char)
    (h2 : ¬ c = '"') (h1 : ¬ c = '\\') (hp : tomlPlainChar c = true) :
    parseBasic (c :: rest) = (parseBasic rest).map (fun t => c :: t) := by
  rw [parseBasic.eq_def]
  try dsimp only
  rw [if_neg h2, if_neg h1, if_pos hp]

theorem parseBasic_escList :
    ∀ v : List Char, v.all tomlSafeChar = true →
      parseBasic (v.foldr (fun c acc => escChar c ++ acc) [] ++ ['"']) = some v := by
  intro v
  induction v with
  | nil =>
    intro _
    rfl
  | cons c cs ih =>
    intro hall
    simp only [List.all_cons, Bool.and_eq_true] at hall
    simp only [List.foldr_cons]
    rw [List.append_assoc]
    by_cases h1 : c = '\\'
    · subst h1
      rw [show escChar '\\' = ['\\', '\\'] from rfl]
      show parseBasic ('\\' :: '\\' ::
        (cs.foldr (fun c acc => escChar c ++ acc) [] ++ ['"'])) = some ('\\' :: cs)
      rw [parseBasic_esc _ _ (by decide), ih hall.2]
      rfl
    · by_cases h2 : c = '"'
      · subst h2
        rw [show escChar '"' = ['\\', '"'] from rfl]
        show parseBasic ('\\' :: '"' ::
          (cs.foldr (fun c acc => escChar c ++ acc) [] ++ ['"'])) = some ('"' :: cs)
        rw [parseBasic_esc _ _ (by decide), ih hall.2]
        rfl
      · have hesc : escChar c = [c] := by
          unfold escChar
          rw [if_neg h1, if_neg h2]
        have hplain : tomlPlainChar c = true := by
          unfold tomlPlainChar
          rw [hall.1]
          simp [h1, h2]
        rw [hesc]
        show parseBasic (c ::
          (cs.foldr (fun c acc => escChar c ++ acc) [] ++ ['"'])) = some (c :: cs)
        rw [parseBasic_plain c _ h2 h1 hplain, ih hall.2]
        rfl

theorem dropExact_append : ∀ key tail : List Char,
    dropExact key (key ++ tail) = some tail := by
  intro key
  induction key with
  | nil => intro tail; rfl
  | cons k ks ih =>
    intro tail
    show dropExact (k :: ks) (k :: (ks ++ tail)) = some tail
    unfold dropExact
    rw [if_pos rfl]
    exact ih tail

theorem parseKeyLine_render (key : List Char) (v : String)
    (hv : tomlSafeStr v = true) :
    parseKeyLine key (renderKeyLine key v) = some v.data := by
  unfold parseKeyLine renderKeyLine
  rw [dropExact_append]
  show parseBasic (_toml_escape v ++ ['"']) = some v.data
  unfold _toml_escape
  exact parseBasic_escList v.data (by simpa [tomlSafeStr] using hv)

theorem parseBlocks_write :
    ∀ rels : List Release,
      (∀ r ∈ rels, tomlSafeStr r.version = true ∧ tomlSafeStr r.date = true ∧
        tomlSafeStr r.tag = true) →
      parseBlocks (rels.foldr (fun r acc =>
          [] :: relHdr :: renderKeyLine verKey r.version ::
            renderKeyLine dateKey r.date ::
            renderKeyLine tagKey r.tag :: acc) [[]]) = some rels := by
  intro rels
  induction rels with
  | nil =>
    intro _
    rfl
  | cons r rest ih =>
    intro hall
    have hr := hall r (by simp)
    simp only [List.foldr_cons]
    rw [parseBlocks, if_pos rfl,
      parseKeyLine_render verKey r.version hr.1,
      parseKeyLine_render dateKey r.date hr.2.1,
      parseKeyLine_render tagKey r.tag hr.2.2,
      ih (fun x hx => hall x (List.mem_cons_of_mem _ hx))]

theorem mem_blocks_no_newline :
    ∀ rels : List Release,
      (∀ r ∈ rels, tomlSafeStr r.version = true ∧ tomlSafeStr r.date = true ∧
        tomlSafeStr r.tag = true) →
      ∀ l ∈ rels.foldr (fun r acc =>
          [] :: relHdr :: renderKeyLine verKey r.version ::
            renderKeyLine dateKey r.date ::
            renderKeyLine tagKey r.tag :: acc) [[]], '\n' ∉ l := by
  intro rels
  induction rels with
  | nil =>
    intro _ l hl
    simp only [List.foldr_nil, List.mem_singleton] at hl
    subst hl
    simp
  | cons r rest ih =>
    intro hall l hl
    have hr := hall r (by simp)
    simp only [List.foldr_cons, List.mem_cons] at hl
    rcases hl with rfl | rfl | rfl | rfl | rfl | hl2
    · simp
    · decide
    · exact renderKeyLine_no_newline (by decide) hr.1
    · exact renderKeyLine_no_newline (by decide) hr.2.1
    · exact renderKeyLine_no_newline (by decide) hr.2.2
    · exact ih (fun x hx => hall x (List.mem_cons_of_mem _ hx)) l hl2

theorem writeLines_no_newline (d : MetaDoc)
    (hcv : tomlSafeStr d.currentVersion = true)
    (hrel : ∀ r ∈ d.releases, tomlSafeStr r.version = true ∧
      tomlSafeStr r.date = true ∧ tomlSafeStr r.tag = true) :
    ∀ l ∈ writeLines d, '\n' ∉ l := by
  intro l hl
  unfold writeLines at hl
  rcases List.mem_cons.mp hl with rfl | hl2
  · exact renderKeyLine_no_newline (by decide) hcv
  · exact mem_blocks_no_newline d.releases hrel l hl2

/-! ### C7 -/

/-- C7 counterexample: a document whose current version contains a newline
is written as an unterminated quoted line (the TOML reader, like
`tomllib`, rejects it), so writing then loading does not yield an equal
document. -/
theorem toml_roundtrip_newline_cx :
    _toml_read (_toml_write ⟨"a\nb", []⟩) ≠ some ⟨"a\nb", []⟩ := by decide

/-- C7 (amended): for metadata documents all of whose string values carry
only TOML-basic-string-safe characters (no control characters other than
tab — in particular no newline), writing with `_toml_write` and loading
with the TOML reader yields an equal document: same current version, same
entries with the same version/date/tag values, in the same order. -/
theorem toml_write_read_roundtrip (d : MetaDoc)
    (hcv : tomlSafeStr d.currentVersion = true)
    (hrel : ∀ r ∈ d.releases, tomlSafeStr r.version = true ∧
      tomlSafeStr r.date = true ∧ tomlSafeStr r.tag = true) :
    _toml_read (_toml_write d) = some d := by
  unfold _toml_read _toml_write
  dsimp only
  rw [splitNL_joinNL (writeLines d) (by simp [writeLines])
      (writeLines_no_newline d hcv hrel)]
  simp only [writeLines]
  rw [parseKeyLine_render cvKey d.currentVersion hcv,
    parseBlocks_write d.releases hrel]

/-- Witness for C7: a two-entry document whose values include an escaped
backslash and quote survives the round trip. -/
theorem toml_write_read_roundtrip_witness :
    _toml_read (_toml_write ⟨"1.3.0-rc.1",
      [⟨"1.2.3", "2024-01-01T00:00:00+00:00", "v1.2.3"⟩,
       ⟨"1.3.0-rc.1", "2024-02-02T00:00:00+00:00", "tag\\with\"marks"⟩]⟩) =
      some ⟨"1.3.0-rc.1",
        [⟨"1.2.3", "2024-01-01T00:00:00+00:00", "v1.2.3"⟩,
         ⟨"1.3.0-rc.1", "2024-02-02T00:00:00+00:00", "tag\\with\"marks"⟩]⟩ :=
  toml_write_read_roundtrip
    ⟨"1.3.0-rc.1",
      [⟨"1.2.3", "2024-01-01T00:00:00+00:00", "v1.2.3"⟩,
       ⟨"1.3.0-rc.1", "2024-02-02T00:00:00+00:00", "tag\\with\"marks"⟩]⟩
    (by decide) (by decide)

/-! ### C4 helper lemmas -/

theorem runAll_err (cmdOk : Cmd → Bool) :
    ∀ (cs ex : List Cmd) (ws : List FileWrite) (e : RelErr),
      (runAll cmdOk ex ws cs).err = some e → ∃ c, e = RelErr.cmdFailed c := by
  intro cs
  induction cs with
  | nil =>
    intro ex ws e h
    simp [runAll] at h
  | cons c cs2 ih =>
    intro ex ws e h
    unfold runAll at h
    by_cases hc : cmdOk c = true
    · rw [if_pos hc] at h
      exact ih _ _ _ h
    · rw [if_neg hc] at h
      simp only [Option.some.injEq] at h
      exact ⟨c, h.symm⟩

theorem ensure_tag_error (tags : List String) (version tagPfx : String)
    (e : RelErr)
    (h : ensure_tag_doesnt_exist tags version tagPfx = Except.error e) :
    e = RelErr.tagExists := by
  unfold ensure_tag_doesnt_exist at h
  dsimp only at h
  by_cases hc : (tags.contains (if tagPfx ≠ "" then tagPfx ++ _version_core version
        else if startsWithV version then version else _version_core version) ||
      tags.contains (_version_core version) ||
      tags.contains ("v" ++ _version_core version)) = true
  · rw [if_pos hc] at h
    exact (Except.error.inj h).symm
  · rw [if_neg hc] at h
    exact absurd h (by simp)

/-- A dry run of the publish sequence produces exactly the pure-check
error over the stale (pre-fetch) observations, executes nothing and
writes nothing. -/
theorem publishSeq_dry (env : GitEnv) (version tagPfx now branch : String) :
    publishSeq env version tagPfx now branch true =
      ⟨if (checkErr env env.remoteRevStale env.tagsStale version tagPfx
            branch).isSome then 1 else 0,
       checkErr env env.remoteRevStale env.tagsStale version tagPfx branch,
       [], []⟩ := by
  unfold publishSeq checkErr
  cases env.repoRoot with
  | none => rfl
  | some root =>
    cases env.headBranch with
    | none => rfl
    | some hb =>
      by_cases hbr : hb ≠ branch
      · simp [hbr]
      · simp only [if_neg hbr]
        cases env.statusOut with
        | none => rfl
        | some st =>
          by_cases hst : st ≠ ""
          · simp [hst]
          · simp only [if_neg hst]
            simp only [Bool.not_true, Bool.false_and, Bool.false_eq_true,
              if_false, if_true]
            cases env.localRev with
            | none => rfl
            | some lr =>
              cases env.remoteRevStale with
              | none => rfl
              | some rr =>
                by_cases hlr : lr ≠ rr
                · simp [hlr]
                · simp only [if_neg hlr]
                  cases htag :
                      ensure_tag_doesnt_exist env.tagsStale version tagPfx with
                  | error e => rfl
                  | ok tag =>
                    unfold update_meta
                    cases env.metaDoc with
                    | none => rfl
                    | some m =>
                      dsimp only
                      by_cases hdup :
                          m.releases.any (fun r => r.version == version) = true
                      · simp [hdup]
                      · simp only [Bool.not_eq_true] at hdup
                        simp [hdup]

/-- A live run of the publish sequence that fails with one of the five
precondition errors fails at a pure check over the fetched observations,
so the same error is the pure-check error over those observations. -/
theorem publishSeq_live_precond (env : GitEnv)
    (version tagPfx now branch : String) (e : RelErr)
    (hp : isPrecondErr e = true)
    (hl : (publishSeq env version tagPfx now branch false).err = some e) :
    checkErr env env.remoteRevFetched env.tagsFetched version tagPfx branch =
      some e := by
  unfold publishSeq at hl
  unfold checkErr
  revert hl
  cases env.repoRoot with
  | none => exact fun hl => hl
  | some root =>
    cases env.headBranch with
    | none => exact fun hl => hl
    | some hb =>
      by_cases hbr : hb ≠ branch
      · simp only [if_pos hbr]
        exact fun hl => hl
      · simp only [if_neg hbr]
        cases env.statusOut with
        | none => exact fun hl => hl
        | some st =>
          by_cases hst : st ≠ ""
          · simp only [if_pos hst]
            exact fun hl => hl
          · simp only [if_neg hst]
            simp only [Bool.not_false, Bool.true_and, Bool.false_eq_true,
              if_false, if_true]
            by_cases hf1 : (!env.cmdOk Cmd.fetchOrigin) = true
            · rw [if_pos hf1]
              intro hl
              have he : some (RelErr.cmdFailed Cmd.fetchOrigin) = some e := hl
              obtain rfl := Option.some.inj he
              exact absurd hp (by decide)
            · rw [if_neg hf1]
              cases env.localRev with
              | none => exact fun hl => hl
              | some lr =>
                cases env.remoteRevFetched with
                | none => exact fun hl => hl
                | some rr =>
                  by_cases hlr : lr ≠ rr
                  · simp only [if_pos hlr]
                    exact fun hl => hl
                  · simp only [if_neg hlr]
                    by_cases hf2 : (!env.cmdOk Cmd.fetchTags) = true
                    · rw [if_pos hf2]
                      intro hl
                      have he : some (RelErr.cmdFailed Cmd.fetchTags) = some e := hl
                      obtain rfl := Option.some.inj he
                      exact absurd hp (by decide)
                    · rw [if_neg hf2]
                      cases htag :
                          ensure_tag_doesnt_exist env.tagsFetched version tagPfx with
                      | error e2 => exact fun hl => hl
                      | ok tag =>
                        unfold update_meta
                        cases env.metaDoc with
                        | none =>
                          simp only [Bool.false_eq_true, if_false]
                          intro hl
                          obtain ⟨c, rfl⟩ := runAll_err env.cmdOk _ _ _ e hl
                          simp [isPrecondErr] at hp
                        | some m =>
                          dsimp only
                          by_cases hdup :
                              m.releases.any (fun r => r.version == version) = true
                          · simp only [if_pos hdup]
                            exact fun hl => hl
                          · simp only [if_neg hdup]
                            simp only [Bool.false_eq_true, if_false]
                            intro hl
                            obtain ⟨c, rfl⟩ := runAll_err env.cmdOk _ _ _ e hl
                            simp [isPrecondErr] at hp

/-- The dirty-tree and wrong-branch outcomes of the pure checks do not
depend on the observed remote rev or tag list: those two checks precede
the remote and tag queries, and no later check produces either error. -/
theorem checkErr_early (env : GitEnv) (r1 r2 : Option String)
    (t1 t2 : List String) (version tagPfx branch : String) (e : RelErr)
    (he : e = RelErr.dirtyTree ∨ e = RelErr.wrongBranch)
    (h : checkErr env r1 t1 version tagPfx branch = some e) :
    checkErr env r2 t2 version tagPfx branch = some e := by
  unfold checkErr at h ⊢
  revert h
  cases env.repoRoot with
  | none =>
    intro h
    have h2 : some RelErr.notARepository = some e := h
    rcases he with rfl | rfl <;> exact absurd h2 (by decide)
  | some root =>
    cases env.headBranch with
    | none =>
      intro h
      have h2 : some RelErr.branchQueryFailed = some e := h
      rcases he with rfl | rfl <;> exact absurd h2 (by decide)
    | some hb =>
      by_cases hbr : hb ≠ branch
      · simp only [if_pos hbr]
        exact fun h => h
      · simp only [if_neg hbr]
        cases env.statusOut with
        | none =>
          intro h
          have h2 : some RelErr.statusQueryFailed = some e := h
          rcases he with rfl | rfl <;> exact absurd h2 (by decide)
        | some st =>
          by_cases hst : st ≠ ""
          · simp only [if_pos hst]
            exact fun h => h
          · simp only [if_neg hst]
            cases env.localRev with
            | none =>
              intro h
              have h2 : some RelErr.localResolveFailed = some e := h
              rcases he with rfl | rfl <;> exact absurd h2 (by decide)
            | some lr =>
              cases r1 with
              | none =>
                intro h
                have h2 : some RelErr.remoteBranchMissing = some e := h
                rcases he with rfl | rfl <;> exact absurd h2 (by decide)
              | some rr =>
                by_cases hlr : lr ≠ rr
                · simp only [if_pos hlr]
                  intro h
                  have h2 : some RelErr.remoteMismatch = some e := h
                  rcases he with rfl | rfl <;> exact absurd h2 (by decide)
                · simp only [if_neg hlr]
                  cases htag : ensure_tag_doesnt_exist t1 version tagPfx with
                  | error e2 =>
                    intro h
                    obtain rfl := ensure_tag_error t1 version tagPfx e2 htag
                    have h2 : some RelErr.tagExists = some e := h
                    rcases he with rfl | rfl <;> exact absurd h2 (by decide)
                  | ok tag =>
                    cases env.metaDoc with
                    | none =>
                      intro h
                      have h2 : (none : Option RelErr) = some e := h
                      exact absurd h2 (by simp)
                    | some m =>
                      by_cases hdup :
                          m.releases.any (fun r => r.version == version) = true
                      · simp only [if_pos hdup]
                        intro h
                        have h2 : some RelErr.duplicateVersion = some e := h
                        rcases he with rfl | rfl <;> exact absurd h2 (by decide)
                      · simp only [if_neg hdup]
                        intro h
                        have h2 : (none : Option RelErr) = some e := h
                        exact absurd h2 (by simp)

/-- The dry-run guarantees for the publish sequence: nothing executed,
nothing written, the fetch-independent failures (dirty tree, wrong
branch) always preserved from a live run, and all five precondition
failures preserved whenever the skipped fetches would not change the
observed remote rev and tag list. -/
theorem publishSeq_dry_parts (env : GitEnv)
    (version tagPfx now branch : String) :
    (publishSeq env version tagPfx now branch true).executed = [] ∧
    (publishSeq env version tagPfx now branch true).writes = [] ∧
    (∀ e, e = RelErr.dirtyTree ∨ e = RelErr.wrongBranch →
      (publishSeq env version tagPfx now branch false).err = some e →
      (publishSeq env version tagPfx now branch true).err = some e) ∧
    (env.remoteRevStale = env.remoteRevFetched →
      env.tagsStale = env.tagsFetched →
      ∀ e, isPrecondErr e = true →
        (publishSeq env version tagPfx now branch false).err = some e →
        (publishSeq env version tagPfx now branch true).err = some e) := by
  refine ⟨?_, ?_, ?_, ?_⟩
  · rw [publishSeq_dry]
  · rw [publishSeq_dry]
  · intro e he hl
    have hp : isPrecondErr e = true := by
      rcases he with rfl | rfl <;> decide
    have hc := publishSeq_live_precond env version tagPfx now branch e hp hl
    rw [publishSeq_dry]
    exact checkErr_early env env.remoteRevFetched env.remoteRevStale
      env.tagsFetched env.tagsStale version tagPfx branch e he hc
  · intro hsr hst e hp hl
    have hc := publishSeq_live_precond env version tagPfx now branch e hp hl
    rw [publishSeq_dry, hsr, hst]
    exact hc

/-! ### C4 -/

/-- C4 counterexample: the dry run skips `git fetch origin`, so its
remote-synchrony check reads the stale tracking ref.  With the local
branch equal to the stale remote ref but behind the fetched one, the
live run raises the remote-mismatch precondition failure while the dry
run succeeds — so a dry run does not raise every precondition failure a
live run would. -/
theorem dry_run_missed_failure_cx :
    (mainPublish ⟨some "/repo", some "main", some "", some "aaa", some "aaa",
        some "bbb", [], [], fun _ => true, none⟩
      "1.0.0" "main" "v" "2024-02-02" true false).err =
        some RelErr.remoteMismatch ∧
    (mainPublish ⟨some "/repo", some "main", some "", some "aaa", some "aaa",
        some "bbb", [], [], fun _ => true, none⟩
      "1.0.0" "main" "v" "2024-02-02" true true).err = none := by decide

/-- C4 (amended): for every environment and configuration, a dry run of
the full orchestrator executes no repository command and writes neither
the metadata file nor the properties mirrors; the dirty-tree and
wrong-branch failures of a live run are always still raised (those checks
precede the skipped fetches); and whenever the skipped `git fetch` /
`git fetch --tags` would not change the observed remote commit and tag
list, every precondition failure (dirty tree, wrong branch, remote
mismatch, tag collision, duplicate version) of a live run is still
raised.  Unconditional preservation fails — see the counterexample. -/
theorem dry_run_no_mutation (env : GitEnv)
    (version branch tagPfx now : String) (allowEq : Bool) :
    (mainPublish env version branch tagPfx now allowEq true).executed = [] ∧
    (mainPublish env version branch tagPfx now allowEq true).writes = [] ∧
    (∀ e, e = RelErr.dirtyTree ∨ e = RelErr.wrongBranch →
      (mainPublish env version branch tagPfx now allowEq false).err = some e →
      (mainPublish env version branch tagPfx now allowEq true).err = some e) ∧
    (env.remoteRevStale = env.remoteRevFetched →
      env.tagsStale = env.tagsFetched →
      ∀ e, isPrecondErr e = true →
        (mainPublish env version branch tagPfx now allowEq false).err = some e →
        (mainPublish env version branch tagPfx now allowEq true).err = some e) := by
  unfold mainPublish
  by_cases hv : (!versionRe version) = true
  · simp only [if_pos hv]
    exact ⟨by trivial, by trivial, fun e _ hl => hl, fun _ _ e _ hl => hl⟩
  · simp only [if_neg hv]
    cases get_current_version env.metaDoc with
    | none =>
      dsimp only
      exact publishSeq_dry_parts env version tagPfx now branch
    | some cv =>
      dsimp only
      by_cases hne : cv ≠ ""
      · simp only [if_pos hne]
        by_cases hpn : (_parse_version cv).isNone = true
        · simp only [if_pos hpn]
          exact ⟨by trivial, by trivial, fun e _ hl => hl, fun _ _ e _ hl => hl⟩
        · simp only [if_neg hpn]
          by_cases hni : (!_is_newer version cv allowEq) = true
          · simp only [if_pos hni]
            exact ⟨by trivial, by trivial, fun e _ hl => hl, fun _ _ e _ hl => hl⟩
          · simp only [if_neg hni]
            exact publishSeq_dry_parts env version tagPfx now branch
      · simp only [if_neg hne]
        exact publishSeq_dry_parts env version tagPfx now branch

/-- Witness for C4: an environment with a dirty working tree whose
fetches change nothing; the live run fails with the dirty-tree error and
the dry run raises the same error while executing no command and writing
nothing. -/
theorem dry_run_no_mutation_witness :
    (mainPublish ⟨some "/repo", some "main", some " M file.txt", some "abc",
        some "abc", some "abc", [], [], fun _ => true, none⟩
      "1.0.0" "main" "v" "2024-02-02" true true).executed = [] ∧
    (mainPublish ⟨some "/repo", some "main", some " M file.txt", some "abc",
        some "abc", some "abc", [], [], fun _ => true, none⟩
      "1.0.0" "main" "v" "2024-02-02" true true).writes = [] ∧
    (mainPublish ⟨some "/repo", some "main", some " M file.txt", some "abc",
        some "abc", some "abc", [], [], fun _ => true, none⟩
      "1.0.0" "main" "v" "2024-02-02" true true).err =
      some RelErr.dirtyTree :=
  have h := dry_run_no_mutation
    ⟨some "/repo", some "main", some " M file.txt", some "abc",
      some "abc", some "abc", [], [], fun _ => true, none⟩
    "1.0.0" "main" "v" "2024-02-02" true
  ⟨h.1, h.2.1, h.2.2.2 rfl rfl RelErr.dirtyTree (by decide) (by decide)⟩

end RemakeEngine


